import Mathlib

set_option maxRecDepth 8192

namespace Spec2Proof

/-!
Shallow embedding of src/agent_behavior_cloning/llm_with_function_calling.py.

The repository wires an LLM chat backend to two tool handlers through a
single-round function-calling loop.  The embedding below models:

* the arithmetic handler evaluate_arithmetic, including the textual rewrite
  of the caret to the Python power operator and the call
  eval(safe_expression, globals) where globals binds exactly the one name
  __builtins__ to an empty mapping;
* the time handler get_current_time over an explicit host-clock value;
* the orchestration loop process_query over an explicit chat-backend oracle,
  instrumented with an event trace recording every backend call and every
  handler invocation.

The Python builtin eval is host-language behavior, not repository code.  It
is modelled here on the fragment the repository uses: integer literals,
the binary operators plus, minus, times, true division and power, unary
plus and minus, parentheses, and names looked up in the globals mapping
that the source passes to eval.  Division and power produce exact rational
values standing in for Python floats (IEEE rounding is not modelled), and
a power with a non-integral exponent, float literals, floor division,
comparisons, keywords and attribute access are outside the modelled
fragment; none of the claims below depends on those corners.
-/

/-- Tokens of the modelled fragment of the Python expression grammar. -/
inductive Tok
  | num (n : Nat)
  | name (s : String)
  | plus
  | minus
  | star
  | slash
  | pow
  | lparen
  | rparen
deriving DecidableEq, Repr

/-- Lexer state: the digits or identifier characters accumulated so far. -/
inductive LexAcc
  | num (ds : List Char)
  | idt (cs : List Char)
deriving DecidableEq, Repr

def natOfDigits (ds : List Char) : Nat :=
  ds.foldl (fun a c => 10 * a + (c.toNat - 48)) 0

/-- Finish the pending token.  CPython rejects a decimal literal with a
leading zero unless every digit is zero, so the flush fails there. -/
def flushAcc : Option LexAcc → Option (List Tok)
  | none => some []
  | some (.num ds) =>
      if ds.head? = some '0' && !(ds.all fun c => c = '0') then none
      else some [Tok.num (natOfDigits ds)]
  | some (.idt cs) => some [Tok.name (String.mk cs)]

def isIdentStart (c : Char) : Bool := c.isAlpha || c = '_'

/-- Single-character operator tokens shared by both lexers. -/
def opTokCommon (c : Char) : Option Tok :=
  if c = '+' then some .plus
  else if c = '-' then some .minus
  else if c = '/' then some .slash
  else if c = '(' then some .lparen
  else if c = ')' then some .rparen
  else none

/-- Modelled from the spec: lexer for standard arithmetic notation in which
the caret itself is the exponentiation operator and a star is only ever
multiplication.  Everything else coincides with the Python lexer. -/
def lexHatAux : List Char → Option LexAcc → Option (List Tok)
  | [], acc => flushAcc acc
  | c :: cs, acc =>
      if c.isDigit then
        match acc with
        | none => lexHatAux cs (some (.num [c]))
        | some (.num ds) => lexHatAux cs (some (.num (ds ++ [c])))
        | some (.idt xs) => lexHatAux cs (some (.idt (xs ++ [c])))
      else if isIdentStart c then
        match acc with
        | none => lexHatAux cs (some (.idt [c]))
        | some (.num _) => none
        | some (.idt xs) => lexHatAux cs (some (.idt (xs ++ [c])))
      else if c = '*' then
        match flushAcc acc, lexHatAux cs none with
        | some pre, some rest => some (pre ++ Tok.star :: rest)
        | _, _ => none
      else if c = '^' then
        match flushAcc acc, lexHatAux cs none with
        | some pre, some rest => some (pre ++ Tok.pow :: rest)
        | _, _ => none
      else
        match opTokCommon c with
        | none => none
        | some t =>
            match flushAcc acc, lexHatAux cs none with
            | some pre, some rest => some (pre ++ t :: rest)
            | _, _ => none

/-- The CPython tokenizer reads a pair of adjacent stars as the single
power operator, by maximal munch from the left, and a lone star as
multiplication.  That munching is exactly the greedy pairing below, so the
Python lexer is modelled as this pass followed by the single-character
lexer that reads the fused pair as the power token. -/
def fuseStars : List Char → List Char
  | [] => []
  | [c] => [c]
  | c1 :: c2 :: cs =>
      if c1 = '*' ∧ c2 = '*' then '^' :: fuseStars cs
      else c1 :: fuseStars (c2 :: cs)

/-- Lexer for the Python source text that eval receives: a pair of stars is
the power operator (maximal munch), a single star is multiplication.  The
caret stands for the already-fused star pair here; a genuine caret (which
Python would read as bitwise xor, outside the modelled fragment) never
reaches this lexer from the handler, because the handler has already
replaced every caret in its input. -/
def lexPPAux (s : List Char) (acc : Option LexAcc) : Option (List Tok) :=
  lexHatAux (fuseStars s) acc

/-- The textual rewrite performed by the handler:
expression.replace(caret, double star), character by character. -/
def replaceCaret : List Char → List Char
  | [] => []
  | c :: cs => if c = '^' then '*' :: '*' :: replaceCaret cs else c :: replaceCaret cs

/-- Abstract syntax of the modelled expression fragment. -/
inductive Expr
  | num (n : Nat)
  | name (s : String)
  | uadd (e : Expr)
  | uneg (e : Expr)
  | add (a b : Expr)
  | sub (a b : Expr)
  | mul (a b : Expr)
  | div (a b : Expr)
  | pow (a b : Expr)
deriving DecidableEq, Repr

def Expr.names : Expr → List String
  | .num _ => []
  | .name s => [s]
  | .uadd e => e.names
  | .uneg e => e.names
  | .add a b => a.names ++ b.names
  | .sub a b => a.names ++ b.names
  | .mul a b => a.names ++ b.names
  | .div a b => a.names ++ b.names
  | .pow a b => a.names ++ b.names

/-- Parser mode: the grammar nonterminal currently being read.  The loop
modes carry the expression accumulated so far, mirroring the iterative
structure of the CPython grammar rules
expr = term ((plus | minus) term)* and term = factor ((star | slash) factor)*,
with factor the unary level, power right associated and its exponent a
unary expression, exactly as in Python. -/
inductive PMode
  | expr
  | exprLoop (acc : Expr)
  | term
  | termLoop (acc : Expr)
  | factor
  | power
  | atom
deriving Repr

/-- Recursive-descent parser over the token list, with explicit fuel; the
fuel is structural and strictly decreases on every call. -/
def parseM : Nat → PMode → List Tok → Option (Expr × List Tok)
  | 0, _, _ => none
  | f + 1, m, ts =>
      match m, ts with
      | .expr, _ =>
          match parseM f .term ts with
          | none => none
          | some (e, r) => parseM f (.exprLoop e) r
      | .exprLoop acc, .plus :: r =>
          match parseM f .term r with
          | none => none
          | some (t, r2) => parseM f (.exprLoop (.add acc t)) r2
      | .exprLoop acc, .minus :: r =>
          match parseM f .term r with
          | none => none
          | some (t, r2) => parseM f (.exprLoop (.sub acc t)) r2
      | .exprLoop acc, _ => some (acc, ts)
      | .term, _ =>
          match parseM f .factor ts with
          | none => none
          | some (e, r) => parseM f (.termLoop e) r
      | .termLoop acc, .star :: r =>
          match parseM f .factor r with
          | none => none
          | some (t, r2) => parseM f (.termLoop (.mul acc t)) r2
      | .termLoop acc, .slash :: r =>
          match parseM f .factor r with
          | none => none
          | some (t, r2) => parseM f (.termLoop (.div acc t)) r2
      | .termLoop acc, _ => some (acc, ts)
      | .factor, .plus :: r =>
          match parseM f .factor r with
          | none => none
          | some (e, r2) => some (.uadd e, r2)
      | .factor, .minus :: r =>
          match parseM f .factor r with
          | none => none
          | some (e, r2) => some (.uneg e, r2)
      | .factor, _ => parseM f .power ts
      | .power, _ =>
          match parseM f .atom ts with
          | none => none
          | some (a, r) =>
              match r with
              | .pow :: r2 =>
                  match parseM f .factor r2 with
                  | none => none
                  | some (e, r3) => some (.pow a e, r3)
              | _ => some (a, r)
      | .atom, .num n :: r => some (.num n, r)
      | .atom, .name s :: r => some (.name s, r)
      | .atom, .lparen :: r =>
          match parseM f .expr r with
          | none => none
          | some (e, r2) =>
              match r2 with
              | .rparen :: r3 => some (e, r3)
              | _ => none
      | .atom, _ => none

/-- Fuel large enough for any token list (each grammar descent and each
loop iteration costs a bounded amount of fuel per consumed token). -/
def bigFuel (ts : List Tok) : Nat := 5 * ts.length + 10

/-- A full parse must consume every token. -/
def pyParse (ts : List Tok) : Option Expr :=
  match parseM (bigFuel ts) .expr ts with
  | some (e, []) => some e
  | _ => none

/-- The exception raised inside eval, before the handler wraps it into the
ValueError that the spec calls ExpressionEvaluationError. -/
inductive EvalError
  | malformed
  | nameError (s : String)
  | typeError
  | zeroDivision
  | nonIntegerPower
deriving DecidableEq, Repr

/-- Python values of the modelled fragment.  float holds an exact rational
standing in for the IEEE double Python would produce; dict models the
mapping values reachable through the globals binding. -/
inductive PyVal
  | int (z : Int)
  | float (q : Rat)
  | dict (d : List (String × String))
deriving DecidableEq, Repr

def toQ : PyVal → Option Rat
  | .int z => some (z : Rat)
  | .float q => some q
  | .dict _ => none

def addV (a b : PyVal) : Except EvalError PyVal :=
  match a, b with
  | .int x, .int y => .ok (.int (x + y))
  | _, _ =>
      match toQ a, toQ b with
      | some x, some y => .ok (.float (x + y))
      | _, _ => .error .typeError

def subV (a b : PyVal) : Except EvalError PyVal :=
  match a, b with
  | .int x, .int y => .ok (.int (x - y))
  | _, _ =>
      match toQ a, toQ b with
      | some x, some y => .ok (.float (x - y))
      | _, _ => .error .typeError

def mulV (a b : PyVal) : Except EvalError PyVal :=
  match a, b with
  | .int x, .int y => .ok (.int (x * y))
  | _, _ =>
      match toQ a, toQ b with
      | some x, some y => .ok (.float (x * y))
      | _, _ => .error .typeError

/-- True division: in Python it always yields a float, and division by zero
raises ZeroDivisionError. -/
def divV (a b : PyVal) : Except EvalError PyVal :=
  match toQ a, toQ b with
  | some x, some y => if y = 0 then .error .zeroDivision else .ok (.float (x / y))
  | _, _ => .error .typeError

/-- Power: int to a nonnegative int is an int; a negative exponent or a
float operand yields a float; zero to a negative power raises
ZeroDivisionError; a non-integral exponent leaves the modelled fragment. -/
def powV (a b : PyVal) : Except EvalError PyVal :=
  match a, b with
  | .int x, .int y =>
      if 0 ≤ y then .ok (.int (x ^ y.toNat))
      else if x = 0 then .error .zeroDivision
      else .ok (.float ((x : Rat) ^ y))
  | _, _ =>
      match toQ a, toQ b with
      | some x, some y =>
          if y.den = 1 then
            if y.num < 0 && x = 0 then .error .zeroDivision
            else .ok (.float (x ^ y.num))
          else .error .nonIntegerPower
      | _, _ => .error .typeError

def posV : PyVal → Except EvalError PyVal
  | .int z => .ok (.int z)
  | .float q => .ok (.float q)
  | .dict _ => .error .typeError

def negV : PyVal → Except EvalError PyVal
  | .int z => .ok (.int (-z))
  | .float q => .ok (.float (-q))
  | .dict _ => .error .typeError

/-- Evaluation of the parsed expression.  Name lookup models the globals
argument the source passes to eval: the dictionary whose only binding is
the name __builtins__ mapped to an empty dict, so that very name resolves
to the empty mapping while every other name raises NameError. -/
def evalE : Expr → Except EvalError PyVal
  | .num n => .ok (.int n)
  | .name s => if s = "__builtins__" then .ok (.dict []) else .error (.nameError s)
  | .uadd e => (evalE e).bind posV
  | .uneg e => (evalE e).bind negV
  | .add a b => (evalE a).bind fun x => (evalE b).bind fun y => addV x y
  | .sub a b => (evalE a).bind fun x => (evalE b).bind fun y => subV x y
  | .mul a b => (evalE a).bind fun x => (evalE b).bind fun y => mulV x y
  | .div a b => (evalE a).bind fun x => (evalE b).bind fun y => divV x y
  | .pow a b => (evalE a).bind fun x => (evalE b).bind fun y => powV x y

deriving instance DecidableEq for Except

def pyEvalToks (ts : List Tok) : Except EvalError PyVal :=
  match pyParse ts with
  | none => .error .malformed
  | some e => evalE e

/-- The modelled eval(source, globals) over raw Python source characters. -/
def pyEvalChars (s : List Char) : Except EvalError PyVal :=
  match lexPPAux s none with
  | none => .error .malformed
  | some ts => pyEvalToks ts

/-- Argument bags carried by a tool call: string keys to string values,
looked up with the get method semantics of a Python dict. -/
abbrev Args := List (String × String)

def argGetD (args : Args) (k d : String) : String :=
  (List.lookup k args).getD d

/-- The arithmetic tool handler: take the expression argument (empty string
when absent), replace every caret by a double star, and evaluate with eval
under the globals binding only __builtins__ to an empty dict.  Any
exception inside eval is wrapped into the ValueError the spec calls
ExpressionEvaluationError; the Except error channel models that wrapper. -/
def evaluate_arithmetic (args : Args) : Except EvalError PyVal :=
  let expression := argGetD args "expression" ""
  pyEvalChars (replaceCaret expression.data)

/-- Modelled from the spec: evaluation of the expression as written, with
the caret itself read as the exponentiation operator, under standard
operator precedence.  It shares the grammar and value semantics with the
modelled eval and differs only in the lexical treatment of the caret. -/
def standardCaretEval (s : String) : Except EvalError PyVal :=
  match lexHatAux s.data none with
  | none => .error .malformed
  | some ts => pyEvalToks ts

/-- The host clock at the moment of the call, as the fields the handler
formats: local time of day, local date, and the timezone name returned by
tzname (none when it cannot be determined). -/
structure Clock where
  hour : Nat
  minute : Nat
  second : Nat
  year : Nat
  month : Nat
  day : Nat
  tz : Option String
deriving DecidableEq, Repr

/-- Two-digit zero-padded decimal field, as strftime renders %H, %M, %S,
%m, %d for in-range values. -/
def pad2 (n : Nat) : List Char := [Nat.digitChar (n / 10 % 10), Nat.digitChar (n % 10)]

/-- Four-digit zero-padded decimal field, as strftime renders %Y for years
up to 9999. -/
def pad4 (n : Nat) : List Char :=
  [Nat.digitChar (n / 1000 % 10), Nat.digitChar (n / 100 % 10),
   Nat.digitChar (n / 10 % 10), Nat.digitChar (n % 10)]

def fmtHMS (c : Clock) : String :=
  String.mk (pad2 c.hour ++ ':' :: (pad2 c.minute ++ ':' :: pad2 c.second))

def fmtYMD (c : Clock) : String :=
  String.mk (pad4 c.year ++ '-' :: (pad2 c.month ++ '-' :: pad2 c.day))

/-- tzname() or "UTC": Python takes the right operand when the left is None
or the empty string, both falsy. -/
def tzString (c : Clock) : String :=
  match c.tz with
  | none => "UTC"
  | some t => if t = "" then "UTC" else t

/-- The time tool handler.  The args parameter, which would carry the
declared format option, is ignored by the source exactly as modelled. -/
def get_current_time (clock : Clock) (_args : Option Args) : PyVal :=
  PyVal.dict
    [("current_time", fmtHMS clock),
     ("current_date", fmtYMD clock),
     ("timezone", tzString clock)]

/-- str(tool_result) as the loop applies it.  Only the integer case is
relied upon by any theorem below; the float and dict renderings stand in
for the Python repr without modelling it. -/
def strOfPyVal : PyVal → String
  | .int z => toString z
  | .float q => toString q
  | .dict _ => "\x7b\x7d"

/-- A tool definition as sent to the backend; the JSON schema payload is
inert data never inspected by the loop, so only the identifying name is
carried. -/
structure ToolDef where
  name : String
deriving DecidableEq, Repr

/-- The function payload of a requested tool call. -/
structure FunctionCall where
  name : String
  arguments : Args
deriving DecidableEq, Repr

/-- One entry of the tool_calls list; the function field may be absent,
which the loop tests with a containment check. -/
structure ToolCall where
  function : Option FunctionCall
deriving DecidableEq, Repr

/-- A chat message.  tool_calls is optional: the ollama response message is
a pydantic model whose subscript access yields the field value, None when
the backend omitted the field. -/
structure ChatMessage where
  role : String
  content : String
  name : Option String := none
  tool_calls : Option (List ToolCall) := none
deriving DecidableEq, Repr

structure ChatResponse where
  message : ChatMessage
deriving DecidableEq, Repr

/-- The external chat backend as an oracle: ollama.chat given the message
history and the optional tool definitions.  The model identifier and the
temperature option are fixed constants in the source and do not influence
the shape of the control flow, so they are folded into the oracle. -/
abbrev ChatFn := List ChatMessage → Option (List ToolDef) → ChatResponse

/-- get_tool_definitions: the registry definitions in registration order. -/
def get_tool_definitions : List ToolDef :=
  [⟨"evaluate_arithmetic"⟩, ⟨"get_current_time"⟩]

/-- The class-level TOOLS registry: tool name to handler, in registration
order.  The time handler closes over the host clock. -/
def TOOLS (clock : Clock) : List (String × (Args → Except EvalError PyVal)) :=
  [("evaluate_arithmetic", evaluate_arithmetic),
   ("get_current_time", fun args => .ok (get_current_time clock (some args)))]

/-- The failure a registry miss raises: the KeyError of the dict indexing
TOOLS[tool_name], which the except ValueError clause does not catch. -/
inductive UncaughtError
  | keyError (key : String)
deriving DecidableEq, Repr

/-- Observable events of one process_query run, in order: each backend
call with its exact message list and tools argument, each handler
invocation, and each logged tool-execution error. -/
inductive Event
  | chatCall (messages : List ChatMessage) (tools : Option (List ToolDef))
  | handlerCall (toolName : String) (arguments : Args)
  | logToolError (e : EvalError)
deriving DecidableEq, Repr

def userMessage (user_query : String) : ChatMessage :=
  ⟨"user", user_query, none, none⟩

/-- The for loop over the requested tool calls, returning the result of
process_query together with the trace of events it produces.  An entry
without a function field is skipped silently; a registry miss raises the
uncaught KeyError; a handler failure is logged and the loop continues; on
the first handler success the three-message follow-up conversation is sent
with tools=None and that response ends the query.  An exhausted loop falls
through to the final return of the initial message content. -/
def processCalls (chat : ChatFn) (clock : Clock) (user_query : String)
    (message : ChatMessage) :
    List ToolCall → Except UncaughtError String × List Event
  | [] => (.ok message.content, [])
  | tc :: rest =>
      match tc.function with
      | none => processCalls chat clock user_query message rest
      | some f =>
          match List.lookup f.name (TOOLS clock) with
          | none => (.error (.keyError f.name), [])
          | some handler =>
              match handler f.arguments with
              | .error e =>
                  let (res, evs) := processCalls chat clock user_query message rest
                  (res, .handlerCall f.name f.arguments :: .logToolError e :: evs)
              | .ok v =>
                  let followup_messages :=
                    [userMessage user_query, message,
                     ⟨"tool", strOfPyVal v, some f.name, none⟩]
                  let followup_response := chat followup_messages none
                  (.ok followup_response.message.content,
                   [.handlerCall f.name f.arguments,
                    .chatCall followup_messages none])

/-- process_query: send the query with the full tool definitions, then
dispatch on the tool_calls of the returned message (absent is treated as
empty by the falsiness test), and either answer directly or run the tool
loop.  The returned trace lists every external effect in order. -/
def process_query (chat : ChatFn) (clock : Clock) (user_query : String) :
    Except UncaughtError String × List Event :=
  let tools := get_tool_definitions
  let messages := [userMessage user_query]
  let initial_response := chat messages (some tools)
  let message := initial_response.message
  let initialEvent := Event.chatCall messages (some tools)
  match message.tool_calls with
  | some (tc :: rest) =>
      let (res, evs) := processCalls chat clock user_query message (tc :: rest)
      (res, initialEvent :: evs)
  | _ => (.ok message.content, [initialEvent])

/-- The number of backend chat calls recorded in a trace. -/
def countChat : List Event → Nat
  | [] => 0
  | .chatCall _ _ :: evs => countChat evs + 1
  | _ :: evs => countChat evs

/-- The number of tool handler invocations recorded in a trace. -/
def countHandler : List Event → Nat
  | [] => 0
  | .handlerCall _ _ :: evs => countHandler evs + 1
  | _ :: evs => countHandler evs

/-- The events contributed by the skipped prefix of the tool-call loop:
for every entry whose handler fails, the handler invocation followed by the
logged error, in list order; entries that are skipped without running a
handler contribute nothing. -/
def skipTrace (clock : Clock) : List ToolCall → List Event
  | [] => []
  | tc :: rest =>
      (match tc.function with
       | none => []
       | some f =>
           match List.lookup f.name (TOOLS clock) with
           | none => []
           | some handler =>
               match handler f.arguments with
               | .error e => [.handlerCall f.name f.arguments, .logToolError e]
               | .ok _ => []) ++ skipTrace clock rest

/-- The pattern HH:MM:SS: eight characters, digits except for colons at
positions two and five. -/
def isHMS (s : String) : Bool :=
  match s.data with
  | [h1, h2, c1, m1, m2, c2, s1, s2] =>
      h1.isDigit && h2.isDigit && (c1 == ':') && m1.isDigit && m2.isDigit &&
        (c2 == ':') && s1.isDigit && s2.isDigit
  | _ => false

/-- The pattern YYYY-MM-DD: ten characters, digits except for dashes at
positions four and seven. -/
def isYMD (s : String) : Bool :=
  match s.data with
  | [y1, y2, y3, y4, d1, m1, m2, d2, dd1, dd2] =>
      y1.isDigit && y2.isDigit && y3.isDigit && y4.isDigit && (d1 == '-') &&
        m1.isDigit && m2.isDigit && (d2 == '-') && dd1.isDigit && dd2.isDigit
  | _ => false

/-- A tool-call entry the loop passes over without raising: either it has
no function field, or its named tool resolves in the registry and the
handler fails (so the failure is logged and the loop continues). -/
def Skippable (clock : Clock) (tc : ToolCall) : Prop :=
  tc.function = none ∨
    ∃ f handler e, tc.function = some f ∧
      List.lookup f.name (TOOLS clock) = some handler ∧ handler f.arguments = .error e

/-- A concrete host clock used by the witnesses. -/
def clk : Clock := ⟨14, 30, 5, 2026, 10, 12, some "UTC"⟩

/-- Concrete backend for the C1 witness: the first call requests the
arithmetic tool on 2^3, the follow-up call answers in prose. -/
def chatC1 : ChatFn := fun msgs _tools =>
  if msgs.length = 1 then
    ⟨⟨"assistant", "", none,
      some [⟨some ⟨"evaluate_arithmetic", [("expression", "2^3")]⟩⟩,
            ⟨some ⟨"get_current_time", []⟩⟩]⟩⟩
  else ⟨⟨"assistant", "2^3 equals 8.", none, none⟩⟩

/-- Concrete backend for the C2 witness: a direct answer with an empty
tool-call list. -/
def chatC2 : ChatFn := fun _ _ =>
  ⟨⟨"assistant", "Paris is the capital of France.", none, some []⟩⟩

/-- Concrete backend for the C5 witness: a direct answer with the
tool_calls field omitted. -/
def chatC5 : ChatFn := fun _ _ =>
  ⟨⟨"assistant", "A direct answer.", none, none⟩⟩

/-- Concrete backend for the C6 witness: a function-less entry, then a
failing arithmetic call, then a call to an unregistered tool. -/
def chatC6 : ChatFn := fun _ _ =>
  ⟨⟨"assistant", "", none,
    some [⟨none⟩,
          ⟨some ⟨"evaluate_arithmetic", [("expression", "(")]⟩⟩,
          ⟨some ⟨"fetch_weather", [("city", "Paris")]⟩⟩]⟩⟩

/-- Concrete backend for C7: both requested calls carry malformed
expressions, so both handler invocations fail. -/
def chatC7 : ChatFn := fun _ _ =>
  ⟨⟨"assistant", "oops", none,
    some [⟨some ⟨"evaluate_arithmetic", [("expression", "(")]⟩⟩,
          ⟨some ⟨"evaluate_arithmetic", [("expression", ")")]⟩⟩]⟩⟩

/-- Concrete backend for the C9 counterexample: the first requested call
fails, the second succeeds, so two handler invocations happen in one
query. -/
def chatC9 : ChatFn := fun msgs _tools =>
  if msgs.length = 1 then
    ⟨⟨"assistant", "", none,
      some [⟨some ⟨"evaluate_arithmetic", [("expression", "(")]⟩⟩,
            ⟨some ⟨"evaluate_arithmetic", [("expression", "1+1")]⟩⟩]⟩⟩
  else ⟨⟨"assistant", "the answer is 2", none, none⟩⟩

/-- Concrete backend for the C10 witness: a non-empty tool-call list in
which no entry has a function field. -/
def chatC10 : ChatFn := fun _ _ =>
  ⟨⟨"assistant", "content despite tool calls", none, some [⟨none⟩, ⟨none⟩]⟩⟩

/-! Properties used to relate the caret-replaced Python lexing of an
expression with its direct reading under the caret grammar.  A bad pair is
a star immediately followed by a star or a caret: exactly the character
pairs on which the textual caret replacement does not commute with
maximal-munch lexing.  The parser lemmas below show a successfully parsed
token list never contains the token image of a bad pair, so the two
readings agree on every expression the caret grammar accepts. -/

/-- No bad token pair: a star token is never immediately followed by a
star or a power token. -/
def NB (a b : Tok) : Prop := ¬(a = Tok.star ∧ (b = Tok.star ∨ b = Tok.pow))

def NoBad (ts : List Tok) : Prop := List.Chain' NB ts

/-- No bad character pair: a star is never immediately followed by a star
or a caret. -/
def NBC (a b : Char) : Prop := ¬(a = '*' ∧ (b = '*' ∨ b = '^'))

def NoBadStr (s : List Char) : Prop := List.Chain' NBC s

def LastOk (c : List Tok) : Prop := ∀ x ∈ c.getLast?, x ≠ Tok.star

def HeadOk (c : List Tok) : Prop := ∀ x ∈ c.head?, x ≠ Tok.star ∧ x ≠ Tok.pow

/-- Invariant of the parsers for expression, term, factor, power and atom:
the consumed prefix is non-empty, holds no bad pair, starts with a token
other than star and power, ends with a token other than star, and every
name token it holds appears among the names of the produced expression. -/
def PInv (ts : List Tok) (e : Expr) (r : List Tok) : Prop :=
  ∃ c, ts = c ++ r ∧ NoBad c ∧ c ≠ [] ∧ HeadOk c ∧ LastOk c ∧
    ∀ n, Tok.name n ∈ c → n ∈ e.names

/-- Invariant of the two loop modes, whose consumed prefix may be empty
and whose produced expression also carries the names of the accumulator. -/
def LInv (acc : Expr) (ts : List Tok) (e : Expr) (r : List Tok) : Prop :=
  ∃ c, ts = c ++ r ∧ NoBad c ∧ LastOk c ∧
    (∀ n, Tok.name n ∈ c → n ∈ e.names) ∧ ∀ n ∈ acc.names, n ∈ e.names

/-- A character legal inside a Python identifier (ASCII fragment): a
letter, an underscore, or, after the first position, a digit. -/
def isPyIdentChar (c : Char) : Bool := isIdentStart c || c.isDigit

/-- A string that is one bare ASCII Python identifier: an identifier-start
character followed by identifier characters.  On such strings the modelled
lexer agrees with the CPython tokenizer exactly. -/
def isPyIdent : List Char → Bool
  | [] => false
  | c :: cs => isIdentStart c && cs.all isPyIdentChar

example : evaluate_arithmetic [("expression", "2^3")] = .ok (.int 8) := by decide
example : evaluate_arithmetic [("expression", "(2+3)*4-6")] = .ok (.int 14) := by decide
example : standardCaretEval "2^3" = .ok (.int 8) := by decide
example : evaluate_arithmetic [("expression", "__builtins__")] = .ok (.dict []) := by decide
example : evaluate_arithmetic [("expression", "(")] = .error .malformed := by decide
example : evaluate_arithmetic [("expression", "1/0")] = .error .zeroDivision := by decide
example : evaluate_arithmetic [("expression", "x+1")] = .error (.nameError "x") := by decide
example : evaluate_arithmetic [("expression", "2**3")] = .ok (.int 8) := by decide
example : standardCaretEval "2**3" = .error .malformed := by decide

/-! ## Helper lemmas about the orchestration loop -/

theorem lookup_evaluate_arithmetic (clock : Clock) :
    List.lookup "evaluate_arithmetic" (TOOLS clock) = some evaluate_arithmetic := rfl

theorem arith_two_pow_three : evaluate_arithmetic [("expression", "2^3")] = .ok (.int 8) := by
  decide

theorem strOfPyVal_eight : strOfPyVal (.int 8) = "8" := rfl

/-- When the initial response carries a non-empty tool-call list, the query
result and trace are the initial chat event followed by the loop run. -/
theorem process_query_eq_of_tool_calls (chat : ChatFn) (clock : Clock) (q : String)
    {l : List ToolCall}
    (h : (chat [userMessage q] (some get_tool_definitions)).message.tool_calls = some l)
    (hne : l ≠ []) :
    process_query chat clock q =
      ((processCalls chat clock q
          (chat [userMessage q] (some get_tool_definitions)).message l).1,
       Event.chatCall [userMessage q] (some get_tool_definitions) ::
         (processCalls chat clock q
            (chat [userMessage q] (some get_tool_definitions)).message l).2) := by
  obtain ⟨a, as, rfl⟩ := List.exists_cons_of_ne_nil hne
  simp only [process_query, h]

/-- Entries without a function field contribute nothing: the loop skips
them silently. -/
theorem processCalls_all_skipped (chat : ChatFn) (clock : Clock) (q : String)
    (m : ChatMessage) :
    ∀ l : List ToolCall, (∀ tc ∈ l, tc.function = none) →
      processCalls chat clock q m l = (.ok m.content, []) := by
  intro l
  induction l with
  | nil => intro _; rfl
  | cons tc rest ih =>
      intro h
      have h0 : tc.function = none := h tc (by simp)
      have h1 := ih fun x hx => h x (by simp [hx])
      simp [processCalls, h0, h1]

/-- A skippable prefix does not change the result of the loop. -/
theorem processCalls_fst_of_skippable (chat : ChatFn) (clock : Clock) (q : String)
    (m : ChatMessage) :
    ∀ (pre l : List ToolCall), (∀ tc ∈ pre, Skippable clock tc) →
      (processCalls chat clock q m (pre ++ l)).1 = (processCalls chat clock q m l).1 := by
  intro pre
  induction pre with
  | nil => intro l _; rfl
  | cons tc pre ih =>
      intro l h
      have htc := h tc (by simp)
      have hrest := ih l fun x hx => h x (by simp [hx])
      rcases htc with hnone | ⟨f, handler, e, hf, hl, he⟩
      · simpa [processCalls, hnone] using hrest
      · simpa [processCalls, hf, hl, he] using hrest

/-- When every entry of the list carries a failing handler, the loop logs
and skips each in order and returns the initial message content. -/
theorem processCalls_all_fail (chat : ChatFn) (clock : Clock) (q : String)
    (m : ChatMessage) :
    ∀ l : List ToolCall,
      (∀ tc ∈ l, ∃ f handler e, tc.function = some f ∧
          List.lookup f.name (TOOLS clock) = some handler ∧
          handler f.arguments = .error e) →
      processCalls chat clock q m l = (.ok m.content, skipTrace clock l) := by
  intro l
  induction l with
  | nil => intro _; rfl
  | cons tc rest ih =>
      intro h
      obtain ⟨f, handler, e, hf, hl, he⟩ := h tc (by simp)
      have h1 := ih fun x hx => h x (by simp [hx])
      simp [processCalls, skipTrace, hf, hl, he, h1]

theorem countChat_skipTrace (clock : Clock) :
    ∀ l : List ToolCall, countChat (skipTrace clock l) = 0 := by
  intro l
  induction l with
  | nil => rfl
  | cons tc rest ih =>
      rcases htc : tc.function with _ | f
      · simpa [skipTrace, htc] using ih
      · rcases hl : List.lookup f.name (TOOLS clock) with _ | handler
        · simpa [skipTrace, htc, hl] using ih
        · rcases he : handler f.arguments with e | v <;>
            simpa [skipTrace, htc, hl, he, countChat] using ih

/-- Per-loop bounds: at most one follow-up chat call, and at most one
handler invocation per entry of the list. -/
theorem processCalls_counts (chat : ChatFn) (clock : Clock) (q : String)
    (m : ChatMessage) :
    ∀ l : List ToolCall,
      countChat (processCalls chat clock q m l).2 ≤ 1 ∧
      countHandler (processCalls chat clock q m l).2 ≤ l.length := by
  intro l
  induction l with
  | nil => exact ⟨by simp [processCalls, countChat], by simp [processCalls, countHandler]⟩
  | cons tc rest ih =>
      rcases htc : tc.function with _ | f
      · exact ⟨by simpa [processCalls, htc] using ih.1,
          le_trans (by simpa [processCalls, htc] using ih.2) (by simp)⟩
      · rcases hl : List.lookup f.name (TOOLS clock) with _ | handler
        · exact ⟨by simp [processCalls, htc, hl, countChat],
            by simp [processCalls, htc, hl, countHandler]⟩
        · rcases he : handler f.arguments with e | v
          · constructor
            · simpa [processCalls, htc, hl, he, countChat] using ih.1
            · have h2 := ih.2
              simp only [processCalls, htc, hl, he, countHandler, List.length_cons]
              omega
          · constructor
            · simp [processCalls, htc, hl, he, countChat]
            · simp [processCalls, htc, hl, he, countHandler]

/-! ## C2: empty tool-call list gives the direct answer -/

/-- C2: when the backend's initial response carries an empty tool-call
list, process_query returns exactly that message's content, the trace
holding the single initial backend call: no handler runs and no second
backend call is made. -/
theorem process_query_empty_tool_calls (chat : ChatFn) (clock : Clock) (q : String)
    (h : (chat [userMessage q] (some get_tool_definitions)).message.tool_calls = some []) :
    process_query chat clock q =
      (.ok (chat [userMessage q] (some get_tool_definitions)).message.content,
       [Event.chatCall [userMessage q] (some get_tool_definitions)]) := by
  simp only [process_query, h]

theorem process_query_empty_tool_calls_witness :
    process_query chatC2 clk "What is the capital of France?" =
      (.ok "Paris is the capital of France.",
       [Event.chatCall [userMessage "What is the capital of France?"]
          (some get_tool_definitions)]) :=
  process_query_empty_tool_calls chatC2 clk "What is the capital of France?" rfl

/-! ## C5: omitted tool_calls field treated as empty -/

/-- C5: when the backend's initial response omits the tool_calls field
(the pydantic message subscript yields None, which the truthiness test
treats as empty), process_query returns the message content instead of
failing, again with the single initial backend call as the whole trace. -/
theorem process_query_missing_tool_calls (chat : ChatFn) (clock : Clock) (q : String)
    (h : (chat [userMessage q] (some get_tool_definitions)).message.tool_calls = none) :
    process_query chat clock q =
      (.ok (chat [userMessage q] (some get_tool_definitions)).message.content,
       [Event.chatCall [userMessage q] (some get_tool_definitions)]) := by
  simp only [process_query, h]

theorem process_query_missing_tool_calls_witness :
    process_query chatC5 clk "Say something." =
      (.ok "A direct answer.",
       [Event.chatCall [userMessage "Say something."] (some get_tool_definitions)]) :=
  process_query_missing_tool_calls chatC5 clk "Say something." rfl

/-! ## C10: entries without a function field are skipped silently -/

/-- C10: when the tool-call list is non-empty but no entry carries a
function field, every entry is skipped silently (no handler invocation, no
log, no second backend call) and process_query returns the initial message
content exactly as on the direct-answer path. -/
theorem process_query_functionless_entries (chat : ChatFn) (clock : Clock) (q : String)
    {l : List ToolCall}
    (h : (chat [userMessage q] (some get_tool_definitions)).message.tool_calls = some l)
    (hne : l ≠ []) (hfn : ∀ tc ∈ l, tc.function = none) :
    process_query chat clock q =
      (.ok (chat [userMessage q] (some get_tool_definitions)).message.content,
       [Event.chatCall [userMessage q] (some get_tool_definitions)]) := by
  rw [process_query_eq_of_tool_calls chat clock q h hne,
    processCalls_all_skipped chat clock q _ l hfn]

theorem process_query_functionless_entries_witness :
    process_query chatC10 clk "hello" =
      (.ok "content despite tool calls",
       [Event.chatCall [userMessage "hello"] (some get_tool_definitions)]) :=
  process_query_functionless_entries chatC10 clk "hello" rfl (by decide)
    (by intro tc htc; fin_cases htc <;> rfl)

/-! ## C1: the arithmetic tool round trip -/

/-- C1: when the first requested tool call is evaluate_arithmetic on the
arguments mapping expression to 2^3, the handler obtains 8, the follow-up
conversation is exactly the three messages (original user message, the
assistant message carrying the request, and a tool-role message named
evaluate_arithmetic with content 8), the backend is called a second time
with no tool definitions, the second response content is returned, and the
trace shows exactly one handler invocation, so no later requested call is
ever attempted. -/
theorem process_query_arith_roundtrip (chat : ChatFn) (clock : Clock) (q : String)
    (rest : List ToolCall)
    (h : (chat [userMessage q] (some get_tool_definitions)).message.tool_calls =
      some (⟨some ⟨"evaluate_arithmetic", [("expression", "2^3")]⟩⟩ :: rest)) :
    evaluate_arithmetic [("expression", "2^3")] = .ok (.int 8) ∧
    process_query chat clock q =
      (.ok (chat [userMessage q,
              (chat [userMessage q] (some get_tool_definitions)).message,
              ⟨"tool", "8", some "evaluate_arithmetic", none⟩] none).message.content,
       [Event.chatCall [userMessage q] (some get_tool_definitions),
        Event.handlerCall "evaluate_arithmetic" [("expression", "2^3")],
        Event.chatCall [userMessage q,
            (chat [userMessage q] (some get_tool_definitions)).message,
            ⟨"tool", "8", some "evaluate_arithmetic", none⟩] none]) := by
  refine ⟨arith_two_pow_three, ?_⟩
  rw [process_query_eq_of_tool_calls chat clock q h (by simp)]
  simp only [processCalls, lookup_evaluate_arithmetic, arith_two_pow_three, strOfPyVal_eight]

theorem process_query_arith_roundtrip_witness :
    process_query chatC1 clk "What is 2^3?" =
      (.ok "2^3 equals 8.",
       [Event.chatCall [userMessage "What is 2^3?"] (some get_tool_definitions),
        Event.handlerCall "evaluate_arithmetic" [("expression", "2^3")],
        Event.chatCall [userMessage "What is 2^3?",
            ⟨"assistant", "", none,
             some [⟨some ⟨"evaluate_arithmetic", [("expression", "2^3")]⟩⟩,
                   ⟨some ⟨"get_current_time", []⟩⟩]⟩,
            ⟨"tool", "8", some "evaluate_arithmetic", none⟩] none]) := by
  have h := (process_query_arith_roundtrip chatC1 clk "What is 2^3?"
    [⟨some ⟨"get_current_time", []⟩⟩] rfl).2
  rw [h]; decide

/-! ## C6: an unregistered tool name raises an uncaught KeyError -/

/-- C6: when the loop reaches an entry whose function names a tool absent
from the registry (every earlier entry being skippable: function-less or
carrying a failing handler), the dict lookup TOOLS[tool_name] raises a
KeyError that the except ValueError clause does not catch, so the query
crashes with that error instead of skipping the call or answering. -/
theorem process_query_unknown_tool (chat : ChatFn) (clock : Clock) (q : String)
    (pre rest : List ToolCall) (tcu : ToolCall) (f : FunctionCall)
    (h : (chat [userMessage q] (some get_tool_definitions)).message.tool_calls =
      some (pre ++ tcu :: rest))
    (hpre : ∀ tc ∈ pre, Skippable clock tc)
    (hf : tcu.function = some f)
    (hlk : List.lookup f.name (TOOLS clock) = none) :
    (process_query chat clock q).1 = .error (.keyError f.name) := by
  rw [process_query_eq_of_tool_calls chat clock q h (by simp)]
  have hskip := processCalls_fst_of_skippable chat clock q
    ((chat [userMessage q] (some get_tool_definitions)).message) pre (tcu :: rest) hpre
  simp only [hskip, processCalls, hf, hlk]

theorem process_query_unknown_tool_witness :
    (process_query chatC6 clk "What is the weather in Paris?").1 =
      .error (.keyError "fetch_weather") := by
  have h := process_query_unknown_tool chatC6 clk "What is the weather in Paris?"
    [⟨none⟩, ⟨some ⟨"evaluate_arithmetic", [("expression", "(")]⟩⟩] []
    ⟨some ⟨"fetch_weather", [("city", "Paris")]⟩⟩ ⟨"fetch_weather", [("city", "Paris")]⟩
    rfl ?_ rfl rfl
  · exact h
  · intro tc htc
    fin_cases htc
    · exact Or.inl rfl
    · exact Or.inr ⟨⟨"evaluate_arithmetic", [("expression", "(")]⟩, evaluate_arithmetic,
        .malformed, rfl, rfl, by decide⟩

/-! ## C7: every requested handler fails -/

/-- C7, counterexample to the claim as stated: with both requested calls
failing, the caller does receive a defined return value, namely the
initial assistant message content (here the string oops), because after
the loop exhausts, control falls through the if block to the final return
statement; the claim asserted that no explicit result is produced for this
path. -/
theorem process_query_all_fail_cex :
    process_query chatC7 clk "What is (?" =
      (.ok "oops",
       [Event.chatCall [userMessage "What is (?"] (some get_tool_definitions),
        Event.handlerCall "evaluate_arithmetic" [("expression", "(")],
        Event.logToolError .malformed,
        Event.handlerCall "evaluate_arithmetic" [("expression", ")")],
        Event.logToolError .malformed]) := by
  decide

/-- C7, amended: when every requested tool call carries a failing handler,
each failure is logged and skipped in list order (the trace appends, per
entry, the handler invocation and the logged error), no second backend
call is made, and the loop falls through to the final return, so the
caller receives the initial assistant message content, the same value as
the direct-answer path, rather than no result. -/
theorem process_query_all_handlers_fail (chat : ChatFn) (clock : Clock) (q : String)
    (l : List ToolCall)
    (h : (chat [userMessage q] (some get_tool_definitions)).message.tool_calls = some l)
    (hne : l ≠ [])
    (hfail : ∀ tc ∈ l, ∃ f handler e, tc.function = some f ∧
        List.lookup f.name (TOOLS clock) = some handler ∧
        handler f.arguments = .error e) :
    process_query chat clock q =
      (.ok (chat [userMessage q] (some get_tool_definitions)).message.content,
       Event.chatCall [userMessage q] (some get_tool_definitions) :: skipTrace clock l) ∧
    countChat (Event.chatCall [userMessage q] (some get_tool_definitions) ::
      skipTrace clock l) = 1 := by
  constructor
  · rw [process_query_eq_of_tool_calls chat clock q h hne,
      processCalls_all_fail chat clock q _ l hfail]
  · simp [countChat, countChat_skipTrace]

theorem process_query_all_handlers_fail_witness :
    process_query chatC7 clk "What is )?" =
      (.ok "oops",
       Event.chatCall [userMessage "What is )?"] (some get_tool_definitions) ::
         skipTrace clk
           [⟨some ⟨"evaluate_arithmetic", [("expression", "(")]⟩⟩,
            ⟨some ⟨"evaluate_arithmetic", [("expression", ")")]⟩⟩]) := by
  have h := process_query_all_handlers_fail chatC7 clk "What is )?"
    [⟨some ⟨"evaluate_arithmetic", [("expression", "(")]⟩⟩,
     ⟨some ⟨"evaluate_arithmetic", [("expression", ")")]⟩⟩]
    rfl (by decide) ?_
  · exact h.1
  · intro tc htc
    fin_cases htc
    · exact ⟨⟨"evaluate_arithmetic", [("expression", "(")]⟩, evaluate_arithmetic,
        .malformed, rfl, rfl, by decide⟩
    · exact ⟨⟨"evaluate_arithmetic", [("expression", ")")]⟩, evaluate_arithmetic,
        .malformed, rfl, rfl, by decide⟩

/-! ## C9: bounds on backend calls and handler invocations -/

/-- C9, counterexample to the claim as stated: one query in which the
first requested call fails and the second succeeds performs two tool
handler invocations, where the claim allowed at most one. -/
theorem process_query_two_handler_invocations_cex :
    countHandler (process_query chatC9 clk "What is 1+1?").2 = 2 ∧
    countChat (process_query chatC9 clk "What is 1+1?").2 = 2 := by
  decide

/-- C9, amended: a single process_query invocation makes at most two
sequential backend chat calls, and at most one handler invocation per
requested tool call (so up to the length of the requested list, not at
most one overall). -/
theorem process_query_call_bounds (chat : ChatFn) (clock : Clock) (q : String) :
    countChat (process_query chat clock q).2 ≤ 2 ∧
    countHandler (process_query chat clock q).2 ≤
      (match (chat [userMessage q] (some get_tool_definitions)).message.tool_calls with
       | some l => l.length
       | none => 0) := by
  cases h : (chat [userMessage q] (some get_tool_definitions)).message.tool_calls with
  | none => simp [process_query, h, countChat, countHandler]
  | some l =>
      cases l with
      | nil => simp [process_query, h, countChat, countHandler]
      | cons tc rest =>
          have hc := processCalls_counts chat clock q
            ((chat [userMessage q] (some get_tool_definitions)).message) (tc :: rest)
          rw [process_query_eq_of_tool_calls chat clock q h (by simp)]
          refine ⟨?_, ?_⟩
          · simp only [countChat]
            omega
          · simp only [countHandler]
            exact hc.2

/-! ## C8: the time tool -/

theorem digitChar_isDigit {k : Nat} (h : k < 10) : (Nat.digitChar k).isDigit = true := by
  interval_cases k <;> decide

/-- C8: for an in-range host clock, get_current_time ignores its argument
bag entirely (any two argument values give the identical result), its
registry handler always succeeds, and the returned mapping carries a
current_time matching HH:MM:SS, a current_date matching YYYY-MM-DD, and
the timezone name, with the string UTC substituted when tzname yields
nothing (or the empty string). -/
theorem get_current_time_spec (clock : Clock) (a b : Option Args)
    (h1 : clock.hour < 24) (h2 : clock.minute < 60) (h3 : clock.second < 60)
    (h4 : clock.year ≤ 9999) (h5 : clock.month ≤ 12) (h6 : clock.day ≤ 31) :
    get_current_time clock a = get_current_time clock b ∧
    List.lookup "get_current_time" (TOOLS clock) =
      some (fun args => .ok (get_current_time clock (some args))) ∧
    get_current_time clock a =
      .dict [("current_time", fmtHMS clock), ("current_date", fmtYMD clock),
             ("timezone", tzString clock)] ∧
    isHMS (fmtHMS clock) = true ∧
    isYMD (fmtYMD clock) = true ∧
    (clock.tz = none → tzString clock = "UTC") ∧
    (clock.tz = some "" → tzString clock = "UTC") ∧
    (∀ t, clock.tz = some t → t ≠ "" → tzString clock = t) := by
  have d : ∀ n : Nat, (Nat.digitChar (n % 10)).isDigit = true := fun n =>
    digitChar_isDigit (Nat.mod_lt _ (by norm_num))
  refine ⟨rfl, rfl, rfl, ?_, ?_, ?_, ?_, ?_⟩
  · simp [isHMS, fmtHMS, pad2, d]
  · simp [isYMD, fmtYMD, pad2, pad4, d]
  · intro h; simp [tzString, h]
  · intro h; simp [tzString, h]
  · intro t ht hne; simp [tzString, ht, hne]

theorem get_current_time_spec_witness :
    get_current_time clk none = get_current_time clk (some [("format", "12h")]) ∧
    List.lookup "get_current_time" (TOOLS clk) =
      some (fun args => .ok (get_current_time clk (some args))) ∧
    get_current_time clk none =
      .dict [("current_time", fmtHMS clk), ("current_date", fmtYMD clk),
             ("timezone", tzString clk)] ∧
    isHMS (fmtHMS clk) = true ∧
    isYMD (fmtYMD clk) = true ∧
    (clk.tz = none → tzString clk = "UTC") ∧
    (clk.tz = some "" → tzString clk = "UTC") ∧
    (∀ t, clk.tz = some t → t ≠ "" → tzString clk = t) :=
  get_current_time_spec clk none (some [("format", "12h")]) (by decide) (by decide)
    (by decide) (by decide) (by decide) (by decide)

/-! ## Character-level lemmas: the caret replacement against star fusing -/

theorem replaceCaret_caret (cs : List Char) :
    replaceCaret ('^' :: cs) = '*' :: '*' :: replaceCaret cs := by
  simp [replaceCaret]

theorem replaceCaret_cons {c : Char} (h : c ≠ '^') (cs : List Char) :
    replaceCaret (c :: cs) = c :: replaceCaret cs := by
  simp [replaceCaret, h]

theorem fuseStars_starstar (cs : List Char) :
    fuseStars ('*' :: '*' :: cs) = '^' :: fuseStars cs := by
  simp [fuseStars]

theorem fuseStars_two {c1 c2 : Char} (h : ¬(c1 = '*' ∧ c2 = '*')) (cs : List Char) :
    fuseStars (c1 :: c2 :: cs) = c1 :: fuseStars (c2 :: cs) := by
  simp only [fuseStars, if_neg h]

theorem replaceCaret_ne_nil {cs : List Char} (h : cs ≠ []) : replaceCaret cs ≠ [] := by
  cases cs with
  | nil => exact absurd rfl h
  | cons c cs2 =>
      by_cases hc : c = '^'
      · subst hc; simp [replaceCaret]
      · simp [replaceCaret, hc]

/-- On a string without bad character pairs, fusing stars undoes the caret
replacement exactly. -/
theorem fuseStars_replaceCaret : ∀ s : List Char, NoBadStr s →
    fuseStars (replaceCaret s) = s := by
  intro s
  induction s with
  | nil => intro _; rfl
  | cons c cs ih =>
      intro h
      have hcs : NoBadStr cs := List.Chain'.tail h
      by_cases hc : c = '^'
      · subst hc
        rw [replaceCaret_caret, fuseStars_starstar, ih hcs]
      · rw [replaceCaret_cons hc]
        by_cases hstar : c = '*'
        · subst hstar
          cases cs with
          | nil => rfl
          | cons c2 cs2 =>
              have hnbc : NBC '*' c2 := (List.chain'_cons'.1 h).1 c2 (by simp)
              have h2s : c2 ≠ '*' := fun hh => hnbc ⟨rfl, Or.inl hh⟩
              have h2c : c2 ≠ '^' := fun hh => hnbc ⟨rfl, Or.inr hh⟩
              rw [replaceCaret_cons h2c, fuseStars_two (fun hh => h2s hh.2)]
              have hrec := ih hcs
              rw [replaceCaret_cons h2c] at hrec
              rw [hrec]
        · cases hX : replaceCaret cs with
          | nil =>
              have : cs = [] := by
                by_contra hne
                exact replaceCaret_ne_nil hne hX
              subst this
              rfl
          | cons d X2 =>
              rw [fuseStars_two (fun hh => hstar hh.1)]
              have hrec := ih hcs
              rw [hX] at hrec
              rw [hrec]

/-! ## Token-level helper lemmas -/

theorem NB_of_fst {a b : Tok} (h : a ≠ Tok.star) : NB a b := fun hc => h hc.1

theorem NB_of_snd {a b : Tok} (h1 : b ≠ Tok.star) (h2 : b ≠ Tok.pow) : NB a b :=
  fun hc => hc.2.elim h1 h2

theorem noBad_append {c1 c2 : List Tok} (h1 : NoBad c1) (h2 : NoBad c2)
    (hl : LastOk c1) : NoBad (c1 ++ c2) := by
  rw [NoBad, List.chain'_append]
  exact ⟨h1, h2, fun x hx y _ => NB_of_fst (hl x hx)⟩

theorem noBad_cons {t : Tok} {c : List Tok} (h : NoBad c)
    (ht : ∀ x ∈ c.head?, NB t x) : NoBad (t :: c) :=
  List.chain'_cons'.2 ⟨ht, h⟩

theorem noBad_tail {t : Tok} {c : List Tok} (h : NoBad (t :: c)) : NoBad c :=
  List.Chain'.tail h

theorem lastOk_append {c1 c2 : List Tok} (h1 : LastOk c1) (h2 : LastOk c2) :
    LastOk (c1 ++ c2) := by
  intro x hx
  rw [List.getLast?_append] at hx
  rcases Option.or_eq_some.1 hx with hh | ⟨_, hh⟩
  · exact h2 x hh
  · exact h1 x hh

theorem lastOk_cons {t : Tok} {c : List Tok} (h : LastOk c) (hne : c ≠ []) :
    LastOk (t :: c) := by
  intro x hx
  have hgl : (t :: c).getLast? = c.getLast? := by
    cases hg : c.getLast? with
    | none => exact absurd (List.getLast?_eq_none_iff.1 hg) hne
    | some y =>
        have h2 : ([t] ++ c).getLast? = (c.getLast?).or [t].getLast? :=
          List.getLast?_append
        simpa [hg, List.singleton_append] using h2
  rw [hgl] at hx
  exact h x hx

theorem lastOk_singleton {t : Tok} (h : t ≠ Tok.star) : LastOk [t] := by
  intro x hx
  simp only [List.getLast?_singleton, Option.mem_def, Option.some.injEq] at hx
  exact hx ▸ h

theorem headOk_append_left {c1 c2 : List Tok} (h1 : HeadOk c1) (hne : c1 ≠ []) :
    HeadOk (c1 ++ c2) := by
  intro x hx
  rw [List.head?_append] at hx
  rcases Option.or_eq_some.1 hx with hh | ⟨hn, _⟩
  · exact h1 x hh
  · exact absurd (List.head?_eq_none_iff.1 hn) hne

theorem PInv_ne_nil_append {c : List Tok} {r : List Tok} (hne : c ≠ []) :
    c ++ r ≠ [] := by
  simp [hne]

/-! ## Unfolding lemmas for the caret lexer -/

theorem lexHatAux_digit {c : Char} (h : c.isDigit = true) (cs : List Char)
    (acc : Option LexAcc) :
    lexHatAux (c :: cs) acc =
      match acc with
      | none => lexHatAux cs (some (.num [c]))
      | some (.num ds) => lexHatAux cs (some (.num (ds ++ [c])))
      | some (.idt xs) => lexHatAux cs (some (.idt (xs ++ [c]))) := by
  simp [lexHatAux, h]

theorem lexHatAux_ident {c : Char} (hd : c.isDigit = false) (hi : isIdentStart c = true)
    (cs : List Char) (acc : Option LexAcc) :
    lexHatAux (c :: cs) acc =
      match acc with
      | none => lexHatAux cs (some (.idt [c]))
      | some (.num _) => none
      | some (.idt xs) => lexHatAux cs (some (.idt (xs ++ [c]))) := by
  simp [lexHatAux, hd, hi]

theorem lexHatAux_star (cs : List Char) (acc : Option LexAcc) :
    lexHatAux ('*' :: cs) acc =
      match flushAcc acc, lexHatAux cs none with
      | some pre, some rest => some (pre ++ Tok.star :: rest)
      | _, _ => none := rfl

theorem lexHatAux_caret (cs : List Char) (acc : Option LexAcc) :
    lexHatAux ('^' :: cs) acc =
      match flushAcc acc, lexHatAux cs none with
      | some pre, some rest => some (pre ++ Tok.pow :: rest)
      | _, _ => none := rfl

theorem lexHatAux_op {c : Char} (hd : c.isDigit = false) (hi : isIdentStart c = false)
    (hs : c ≠ '*') (hc : c ≠ '^') (cs : List Char) (acc : Option LexAcc) :
    lexHatAux (c :: cs) acc =
      match opTokCommon c with
      | none => none
      | some t =>
          match flushAcc acc, lexHatAux cs none with
          | some pre, some rest => some (pre ++ t :: rest)
          | _, _ => none := by
  simp [lexHatAux, hd, hi, hs, hc]

theorem lexHat_starts_star {cs2 : List Char} {r : List Tok}
    (h : lexHatAux ('*' :: cs2) none = some r) : ∃ r2, r = Tok.star :: r2 := by
  rw [lexHatAux_star] at h
  have hf : flushAcc none = some [] := rfl
  rw [hf] at h
  cases hrest : lexHatAux cs2 none with
  | none => rw [hrest] at h; simp at h
  | some rest =>
      rw [hrest] at h
      simp at h
      exact ⟨rest, h.symm⟩

theorem lexHat_starts_caret {cs2 : List Char} {r : List Tok}
    (h : lexHatAux ('^' :: cs2) none = some r) : ∃ r2, r = Tok.pow :: r2 := by
  rw [lexHatAux_caret] at h
  have hf : flushAcc none = some [] := rfl
  rw [hf] at h
  cases hrest : lexHatAux cs2 none with
  | none => rw [hrest] at h; simp at h
  | some rest =>
      rw [hrest] at h
      simp at h
      exact ⟨rest, h.symm⟩

theorem isDigit_of_eq_false {c : Char} (h : ¬c.isDigit = true) : c.isDigit = false := by
  revert h; cases c.isDigit <;> simp

theorem isIdentStart_of_eq_false {c : Char} (h : ¬isIdentStart c = true) :
    isIdentStart c = false := by
  revert h; cases isIdentStart c <;> simp

/-- A successfully lexed string whose token list holds no bad token pair
holds no bad character pair: a star followed by a star or a caret in the
source would lex to a star token followed by a star or a power token. -/
theorem lexHat_noBadStr : ∀ (s : List Char) (acc : Option LexAcc) (ts : List Tok),
    lexHatAux s acc = some ts → NoBad ts → NoBadStr s := by
  intro s
  induction s with
  | nil => intro acc ts _ _; exact List.chain'_nil
  | cons c cs ih =>
      intro acc ts h hnb
      by_cases hd : c.isDigit = true
      · rw [lexHatAux_digit hd] at h
        have hne : c ≠ '*' := fun hh => by rw [hh] at hd; exact absurd hd (by decide)
        cases acc with
        | none =>
            exact List.chain'_cons'.2 ⟨fun y _ hcc => hne hcc.1, ih _ _ h hnb⟩
        | some a =>
            cases a with
            | num ds => exact List.chain'_cons'.2 ⟨fun y _ hcc => hne hcc.1, ih _ _ h hnb⟩
            | idt xs => exact List.chain'_cons'.2 ⟨fun y _ hcc => hne hcc.1, ih _ _ h hnb⟩
      · have hd2 := isDigit_of_eq_false hd
        by_cases hi : isIdentStart c = true
        · rw [lexHatAux_ident hd2 hi] at h
          have hne : c ≠ '*' := fun hh => by rw [hh] at hi; exact absurd hi (by decide)
          cases acc with
          | none => exact List.chain'_cons'.2 ⟨fun y _ hcc => hne hcc.1, ih _ _ h hnb⟩
          | some a =>
              cases a with
              | num ds => exact absurd h (by simp)
              | idt xs => exact List.chain'_cons'.2 ⟨fun y _ hcc => hne hcc.1, ih _ _ h hnb⟩
        · have hi2 := isIdentStart_of_eq_false hi
          by_cases hs : c = '*'
          · subst hs
            rw [lexHatAux_star] at h
            cases hfa : flushAcc acc with
            | none => rw [hfa] at h; simp at h
            | some pre =>
                rw [hfa] at h
                cases hrest : lexHatAux cs none with
                | none => rw [hrest] at h; simp at h
                | some rest =>
                    rw [hrest] at h
                    simp at h
                    subst h
                    have hnb2 : NoBad (Tok.star :: rest) :=
                      List.Chain'.suffix hnb ⟨pre, rfl⟩
                    have hcs : NoBadStr cs := ih none rest hrest (noBad_tail hnb2)
                    refine List.chain'_cons'.2 ⟨?_, hcs⟩
                    intro y hy hcc
                    rcases hcc with ⟨_, hy2⟩
                    cases cs with
                    | nil => simp at hy
                    | cons c2 cs2 =>
                        have hc2 : c2 = y := by simpa using hy
                        subst hc2
                        rcases hy2 with h2 | h2
                        · rw [h2] at hrest
                          obtain ⟨r2, hr2⟩ := lexHat_starts_star hrest
                          rw [hr2] at hnb2
                          exact (List.chain'_cons'.1 hnb2).1 Tok.star (by simp)
                            ⟨rfl, Or.inl rfl⟩
                        · rw [h2] at hrest
                          obtain ⟨r2, hr2⟩ := lexHat_starts_caret hrest
                          rw [hr2] at hnb2
                          exact (List.chain'_cons'.1 hnb2).1 Tok.pow (by simp)
                            ⟨rfl, Or.inr rfl⟩
          · by_cases hcar : c = '^'
            · subst hcar
              rw [lexHatAux_caret] at h
              cases hfa : flushAcc acc with
              | none => rw [hfa] at h; simp at h
              | some pre =>
                  rw [hfa] at h
                  cases hrest : lexHatAux cs none with
                  | none => rw [hrest] at h; simp at h
                  | some rest =>
                      rw [hrest] at h
                      simp at h
                      subst h
                      have hnb2 : NoBad (Tok.pow :: rest) :=
                        List.Chain'.suffix hnb ⟨pre, rfl⟩
                      have hcs : NoBadStr cs := ih none rest hrest (noBad_tail hnb2)
                      exact List.chain'_cons'.2 ⟨fun y _ hcc => hs hcc.1, hcs⟩
            · rw [lexHatAux_op hd2 hi2 hs hcar] at h
              cases hop : opTokCommon c with
              | none => rw [hop] at h; simp at h
              | some t =>
                  rw [hop] at h
                  cases hfa : flushAcc acc with
                  | none => rw [hfa] at h; simp at h
                  | some pre =>
                      rw [hfa] at h
                      cases hrest : lexHatAux cs none with
                      | none => rw [hrest] at h; simp at h
                      | some rest =>
                          rw [hrest] at h
                          simp at h
                          subst h
                          have hnb2 : NoBad (t :: rest) :=
                            List.Chain'.suffix hnb ⟨pre, rfl⟩
                          have hcs : NoBadStr cs := ih none rest hrest (noBad_tail hnb2)
                          exact List.chain'_cons'.2 ⟨fun y _ hcc => hs hcc.1, hcs⟩

/-! ## The parser invariant -/

theorem LInv_refl (acc : Expr) (ts : List Tok) : LInv acc ts acc ts :=
  ⟨[], rfl, List.chain'_nil, by intro x hx; simp at hx, by intro n hn; simp at hn,
   fun _ hn => hn⟩

/-- Every parser mode, on success, consumes a prefix satisfying its
invariant: no bad token pair, no star at the edge positions that could
form one across a boundary, and every consumed name token accounted for in
the produced expression. -/
theorem parseM_inv : ∀ f : Nat,
    (∀ ts e r, parseM f .expr ts = some (e, r) → PInv ts e r) ∧
    (∀ acc ts e r, parseM f (.exprLoop acc) ts = some (e, r) → LInv acc ts e r) ∧
    (∀ ts e r, parseM f .term ts = some (e, r) → PInv ts e r) ∧
    (∀ acc ts e r, parseM f (.termLoop acc) ts = some (e, r) → LInv acc ts e r) ∧
    (∀ ts e r, parseM f .factor ts = some (e, r) → PInv ts e r) ∧
    (∀ ts e r, parseM f .power ts = some (e, r) → PInv ts e r) ∧
    (∀ ts e r, parseM f .atom ts = some (e, r) → PInv ts e r) := by
  intro f
  induction f with
  | zero =>
      exact ⟨fun ts e r h => absurd h (by simp [parseM]),
        fun acc ts e r h => absurd h (by simp [parseM]),
        fun ts e r h => absurd h (by simp [parseM]),
        fun acc ts e r h => absurd h (by simp [parseM]),
        fun ts e r h => absurd h (by simp [parseM]),
        fun ts e r h => absurd h (by simp [parseM]),
        fun ts e r h => absurd h (by simp [parseM])⟩
  | succ f ih =>
      obtain ⟨ihE, ihEL, ihT, ihTL, ihF, ihP, ihA⟩ := ih
      have hA : ∀ ts e r, parseM (f + 1) .atom ts = some (e, r) → PInv ts e r := by
        intro ts e r h
        cases ts with
        | nil => simp [parseM] at h
        | cons t ts2 =>
            cases t with
            | num n =>
                simp [parseM] at h
                obtain ⟨rfl, rfl⟩ := h
                refine ⟨[Tok.num n], rfl, List.chain'_singleton _, by simp, ?_, ?_, ?_⟩
                · intro x hx; simp at hx; subst hx; exact ⟨by simp, by simp⟩
                · intro x hx; simp at hx; subst hx; simp
                · intro n2 hn; simp at hn
            | name s =>
                simp [parseM] at h
                obtain ⟨rfl, rfl⟩ := h
                refine ⟨[Tok.name s], rfl, List.chain'_singleton _, by simp, ?_, ?_, ?_⟩
                · intro x hx; simp at hx; subst hx; exact ⟨by simp, by simp⟩
                · intro x hx; simp at hx; subst hx; simp
                · intro n2 hn
                  simp at hn
                  subst hn
                  simp [Expr.names]
            | lparen =>
                simp only [parseM] at h
                rcases hE2 : parseM f .expr ts2 with _ | ⟨e2, r2⟩
                · rw [hE2] at h; simp at h
                · rw [hE2] at h
                  cases r2 with
                  | nil => simp at h
                  | cons t3 r3 =>
                      cases t3 with
                      | rparen =>
                          simp at h
                          obtain ⟨rfl, rfl⟩ := h
                          obtain ⟨cE, hts2, hnbE, hneE, hheadE, hlastE, hnamesE⟩ :=
                            ihE ts2 e2 (Tok.rparen :: r3) hE2
                          refine ⟨Tok.lparen :: cE ++ [Tok.rparen], ?_, ?_, by simp,
                            ?_, ?_, ?_⟩
                          · rw [hts2]; simp
                          · exact noBad_cons
                              (noBad_append hnbE (List.chain'_singleton _) hlastE)
                              (fun x _ => NB_of_fst (by simp))
                          · intro x hx; simp at hx; subst hx; exact ⟨by simp, by simp⟩
                          · exact lastOk_cons
                              (lastOk_append hlastE (lastOk_singleton (by simp)))
                              (by simp)
                          · intro n2 hn
                            rcases List.mem_cons.1 hn with heq | hn2
                            · simp at heq
                            · rcases List.mem_append.1 hn2 with hn3 | hn3
                              · exact hnamesE n2 hn3
                              · simp at hn3
                      | num n => simp at h
                      | name s => simp at h
                      | plus => simp at h
                      | minus => simp at h
                      | star => simp at h
                      | slash => simp at h
                      | pow => simp at h
                      | lparen => simp at h
            | plus => simp [parseM] at h
            | minus => simp [parseM] at h
            | star => simp [parseM] at h
            | slash => simp [parseM] at h
            | pow => simp [parseM] at h
            | rparen => simp [parseM] at h
      have hP : ∀ ts e r, parseM (f + 1) .power ts = some (e, r) → PInv ts e r := by
        intro ts e r h
        simp only [parseM] at h
        rcases hA2 : parseM f .atom ts with _ | ⟨a, ra⟩
        · rw [hA2] at h; simp at h
        · rw [hA2] at h
          cases ra with
          | nil =>
              simp at h
              obtain ⟨rfl, rfl⟩ := h
              exact ihA ts _ _ hA2
          | cons t2 ra2 =>
              cases t2
              case pow =>
                  dsimp only at h
                  rcases hF2 : parseM f .factor ra2 with _ | ⟨ex, r3⟩
                  · rw [hF2] at h; simp at h
                  · rw [hF2] at h
                    simp at h
                    obtain ⟨rfl, rfl⟩ := h
                    obtain ⟨cA, htsA, hnbA, hneA, hheadA, hlastA, hnamesA⟩ :=
                      ihA ts a _ hA2
                    obtain ⟨cF, hraF, hnbF, hneF, hheadF, hlastF, hnamesF⟩ :=
                      ihF ra2 ex _ hF2
                    refine ⟨cA ++ Tok.pow :: cF, ?_, ?_, by simp [hneA], ?_, ?_, ?_⟩
                    · rw [htsA, hraF]; simp
                    · exact noBad_append hnbA
                        (noBad_cons hnbF (fun x _ => NB_of_fst (by simp))) hlastA
                    · exact headOk_append_left hheadA hneA
                    · exact lastOk_append hlastA (lastOk_cons hlastF hneF)
                    · intro n hn
                      rcases List.mem_append.1 hn with h1 | h1
                      · simp only [Expr.names, List.mem_append]
                        exact Or.inl (hnamesA n h1)
                      · rcases List.mem_cons.1 h1 with heq | h2
                        · simp at heq
                        · simp only [Expr.names, List.mem_append]
                          exact Or.inr (hnamesF n h2)
              all_goals
                simp at h
                obtain ⟨rfl, rfl⟩ := h
                exact ihA ts _ _ hA2
      have hF : ∀ ts e r, parseM (f + 1) .factor ts = some (e, r) → PInv ts e r := by
        intro ts e r h
        cases ts with
        | nil =>
            simp only [parseM] at h
            exact ihP [] e r h
        | cons t ts2 =>
            cases t
            case plus =>
                simp only [parseM] at h
                rcases hF2 : parseM f .factor ts2 with _ | ⟨e2, r2⟩
                · rw [hF2] at h; simp at h
                · rw [hF2] at h
                  simp at h
                  obtain ⟨rfl, rfl⟩ := h
                  obtain ⟨cF, hts2, hnbF, hneF, hheadF, hlastF, hnamesF⟩ :=
                    ihF ts2 e2 _ hF2
                  refine ⟨Tok.plus :: cF, by rw [hts2]; rfl,
                    noBad_cons hnbF (fun x _ => NB_of_fst (by simp)), by simp,
                    ?_, lastOk_cons hlastF hneF, ?_⟩
                  · intro x hx; simp at hx; subst hx; exact ⟨by simp, by simp⟩
                  · intro n hn
                    rcases List.mem_cons.1 hn with heq | h2
                    · simp at heq
                    · simpa [Expr.names] using hnamesF n h2
            case minus =>
                simp only [parseM] at h
                rcases hF2 : parseM f .factor ts2 with _ | ⟨e2, r2⟩
                · rw [hF2] at h; simp at h
                · rw [hF2] at h
                  simp at h
                  obtain ⟨rfl, rfl⟩ := h
                  obtain ⟨cF, hts2, hnbF, hneF, hheadF, hlastF, hnamesF⟩ :=
                    ihF ts2 e2 _ hF2
                  refine ⟨Tok.minus :: cF, by rw [hts2]; rfl,
                    noBad_cons hnbF (fun x _ => NB_of_fst (by simp)), by simp,
                    ?_, lastOk_cons hlastF hneF, ?_⟩
                  · intro x hx; simp at hx; subst hx; exact ⟨by simp, by simp⟩
                  · intro n hn
                    rcases List.mem_cons.1 hn with heq | h2
                    · simp at heq
                    · simpa [Expr.names] using hnamesF n h2
            all_goals
              simp only [parseM] at h
              exact ihP _ e r h
      have hT : ∀ ts e r, parseM (f + 1) .term ts = some (e, r) → PInv ts e r := by
        intro ts e r h
        simp only [parseM] at h
        rcases hF2 : parseM f .factor ts with _ | ⟨e2, r2⟩
        · rw [hF2] at h; simp at h
        · rw [hF2] at h
          obtain ⟨cF, hts, hnbF, hneF, hheadF, hlastF, hnamesF⟩ := ihF ts e2 r2 hF2
          obtain ⟨cL, hr2, hnbL, hlastL, hnamesL, haccL⟩ := ihTL e2 r2 e r h
          refine ⟨cF ++ cL, ?_, noBad_append hnbF hnbL hlastF, by simp [hneF],
            headOk_append_left hheadF hneF, lastOk_append hlastF hlastL, ?_⟩
          · rw [hts, hr2, List.append_assoc]
          · intro n hn
            rcases List.mem_append.1 hn with h1 | h1
            · exact haccL n (hnamesF n h1)
            · exact hnamesL n h1
      have hE : ∀ ts e r, parseM (f + 1) .expr ts = some (e, r) → PInv ts e r := by
        intro ts e r h
        simp only [parseM] at h
        rcases hT2 : parseM f .term ts with _ | ⟨e2, r2⟩
        · rw [hT2] at h; simp at h
        · rw [hT2] at h
          obtain ⟨cT, hts, hnbT, hneT, hheadT, hlastT, hnamesT⟩ := ihT ts e2 r2 hT2
          obtain ⟨cL, hr2, hnbL, hlastL, hnamesL, haccL⟩ := ihEL e2 r2 e r h
          refine ⟨cT ++ cL, ?_, noBad_append hnbT hnbL hlastT, by simp [hneT],
            headOk_append_left hheadT hneT, lastOk_append hlastT hlastL, ?_⟩
          · rw [hts, hr2, List.append_assoc]
          · intro n hn
            rcases List.mem_append.1 hn with h1 | h1
            · exact haccL n (hnamesT n h1)
            · exact hnamesL n h1
      have hTL : ∀ acc ts e r, parseM (f + 1) (.termLoop acc) ts = some (e, r) →
          LInv acc ts e r := by
        intro acc ts e r h
        cases ts with
        | nil =>
            simp [parseM] at h
            obtain ⟨rfl, rfl⟩ := h
            exact LInv_refl _ _
        | cons t ts2 =>
            cases t
            case star =>
                simp only [parseM] at h
                rcases hF2 : parseM f .factor ts2 with _ | ⟨e2, r2⟩
                · rw [hF2] at h; simp at h
                · rw [hF2] at h
                  obtain ⟨cF, hts2, hnbF, hneF, hheadF, hlastF, hnamesF⟩ :=
                    ihF ts2 e2 r2 hF2
                  obtain ⟨cL, hr2, hnbL, hlastL, hnamesL, haccL⟩ :=
                    ihTL (.mul acc e2) r2 e r h
                  refine ⟨Tok.star :: cF ++ cL, ?_, ?_, ?_, ?_, ?_⟩
                  · rw [hts2, hr2]; simp
                  · refine noBad_cons (noBad_append hnbF hnbL hlastF) ?_
                    intro x hx
                    have hx2 : x ∈ (cF ++ cL).head? := hx
                    rw [List.head?_append] at hx2
                    rcases Option.or_eq_some.1 hx2 with hh | ⟨hn2, _⟩
                    · exact NB_of_snd (hheadF x hh).1 (hheadF x hh).2
                    · exact absurd (List.head?_eq_none_iff.1 hn2) hneF
                  · exact lastOk_cons (lastOk_append hlastF hlastL) (by simp [hneF])
                  · intro n hn
                    rcases List.mem_cons.1 hn with heq | h2
                    · simp at heq
                    · rcases List.mem_append.1 h2 with h3 | h3
                      · refine haccL n ?_
                        simp only [Expr.names, List.mem_append]
                        exact Or.inr (hnamesF n h3)
                      · exact hnamesL n h3
                  · intro n hn
                    refine haccL n ?_
                    simp only [Expr.names, List.mem_append]
                    exact Or.inl hn
            case slash =>
                simp only [parseM] at h
                rcases hF2 : parseM f .factor ts2 with _ | ⟨e2, r2⟩
                · rw [hF2] at h; simp at h
                · rw [hF2] at h
                  obtain ⟨cF, hts2, hnbF, hneF, hheadF, hlastF, hnamesF⟩ :=
                    ihF ts2 e2 r2 hF2
                  obtain ⟨cL, hr2, hnbL, hlastL, hnamesL, haccL⟩ :=
                    ihTL (.div acc e2) r2 e r h
                  refine ⟨Tok.slash :: cF ++ cL, ?_, ?_, ?_, ?_, ?_⟩
                  · rw [hts2, hr2]; simp
                  · exact noBad_cons (noBad_append hnbF hnbL hlastF)
                      (fun x _ => NB_of_fst (by simp))
                  · exact lastOk_cons (lastOk_append hlastF hlastL) (by simp [hneF])
                  · intro n hn
                    rcases List.mem_cons.1 hn with heq | h2
                    · simp at heq
                    · rcases List.mem_append.1 h2 with h3 | h3
                      · refine haccL n ?_
                        simp only [Expr.names, List.mem_append]
                        exact Or.inr (hnamesF n h3)
                      · exact hnamesL n h3
                  · intro n hn
                    refine haccL n ?_
                    simp only [Expr.names, List.mem_append]
                    exact Or.inl hn
            all_goals
              simp [parseM] at h
              obtain ⟨rfl, rfl⟩ := h
              exact LInv_refl _ _
      have hEL : ∀ acc ts e r, parseM (f + 1) (.exprLoop acc) ts = some (e, r) →
          LInv acc ts e r := by
        intro acc ts e r h
        cases ts with
        | nil =>
            simp [parseM] at h
            obtain ⟨rfl, rfl⟩ := h
            exact LInv_refl _ _
        | cons t ts2 =>
            cases t
            case plus =>
                simp only [parseM] at h
                rcases hT2 : parseM f .term ts2 with _ | ⟨e2, r2⟩
                · rw [hT2] at h; simp at h
                · rw [hT2] at h
                  obtain ⟨cT, hts2, hnbT, hneT, hheadT, hlastT, hnamesT⟩ :=
                    ihT ts2 e2 r2 hT2
                  obtain ⟨cL, hr2, hnbL, hlastL, hnamesL, haccL⟩ :=
                    ihEL (.add acc e2) r2 e r h
                  refine ⟨Tok.plus :: cT ++ cL, ?_, ?_, ?_, ?_, ?_⟩
                  · rw [hts2, hr2]; simp
                  · exact noBad_cons (noBad_append hnbT hnbL hlastT)
                      (fun x _ => NB_of_fst (by simp))
                  · exact lastOk_cons (lastOk_append hlastT hlastL) (by simp [hneT])
                  · intro n hn
                    rcases List.mem_cons.1 hn with heq | h2
                    · simp at heq
                    · rcases List.mem_append.1 h2 with h3 | h3
                      · refine haccL n ?_
                        simp only [Expr.names, List.mem_append]
                        exact Or.inr (hnamesT n h3)
                      · exact hnamesL n h3
                  · intro n hn
                    refine haccL n ?_
                    simp only [Expr.names, List.mem_append]
                    exact Or.inl hn
            case minus =>
                simp only [parseM] at h
                rcases hT2 : parseM f .term ts2 with _ | ⟨e2, r2⟩
                · rw [hT2] at h; simp at h
                · rw [hT2] at h
                  obtain ⟨cT, hts2, hnbT, hneT, hheadT, hlastT, hnamesT⟩ :=
                    ihT ts2 e2 r2 hT2
                  obtain ⟨cL, hr2, hnbL, hlastL, hnamesL, haccL⟩ :=
                    ihEL (.sub acc e2) r2 e r h
                  refine ⟨Tok.minus :: cT ++ cL, ?_, ?_, ?_, ?_, ?_⟩
                  · rw [hts2, hr2]; simp
                  · exact noBad_cons (noBad_append hnbT hnbL hlastT)
                      (fun x _ => NB_of_fst (by simp))
                  · exact lastOk_cons (lastOk_append hlastT hlastL) (by simp [hneT])
                  · intro n hn
                    rcases List.mem_cons.1 hn with heq | h2
                    · simp at heq
                    · rcases List.mem_append.1 h2 with h3 | h3
                      · refine haccL n ?_
                        simp only [Expr.names, List.mem_append]
                        exact Or.inr (hnamesT n h3)
                      · exact hnamesL n h3
                  · intro n hn
                    refine haccL n ?_
                    simp only [Expr.names, List.mem_append]
                    exact Or.inl hn
            all_goals
              simp [parseM] at h
              obtain ⟨rfl, rfl⟩ := h
              exact LInv_refl _ _
      exact ⟨hE, hEL, hT, hTL, hF, hP, hA⟩

/-- A full parse leaves a token list with no bad pair, and every name
token of the input appears among the names of the produced expression. -/
theorem pyParse_inv {ts : List Tok} {e : Expr} (h : pyParse ts = some e) :
    NoBad ts ∧ ∀ n, Tok.name n ∈ ts → n ∈ e.names := by
  unfold pyParse at h
  rcases hp : parseM (bigFuel ts) .expr ts with _ | ⟨e2, r⟩
  · rw [hp] at h; simp at h
  · rw [hp] at h
    cases r with
    | nil =>
        simp at h
        subst h
        obtain ⟨c, hc, hnb, _, _, _, hnames⟩ := (parseM_inv (bigFuel ts)).1 ts e2 [] hp
        rw [List.append_nil] at hc
        subst hc
        exact ⟨hnb, hnames⟩
    | cons t r2 => simp at h

/-! ## Evaluation shapes -/

theorem pyEvalToks_ok_shape {ts : List Tok} {v : PyVal} (h : pyEvalToks ts = .ok v) :
    ∃ e, pyParse ts = some e ∧ evalE e = .ok v := by
  unfold pyEvalToks at h
  cases hp : pyParse ts with
  | none => rw [hp] at h; simp at h
  | some e => rw [hp] at h; exact ⟨e, rfl, h⟩

theorem standardCaretEval_ok_shape {s : String} {v : PyVal}
    (h : standardCaretEval s = .ok v) :
    ∃ ts, lexHatAux s.data none = some ts ∧ pyEvalToks ts = .ok v := by
  unfold standardCaretEval at h
  cases hl : lexHatAux s.data none with
  | none => rw [hl] at h; simp at h
  | some ts => rw [hl] at h; exact ⟨ts, rfl, h⟩

/-! ## Character-class facts -/

theorem isDigit_not_identStart {c : Char} (h : c.isDigit = true) :
    isIdentStart c = false := by
  simp only [Char.isDigit, Bool.and_eq_true, decide_eq_true_eq] at h
  obtain ⟨_, h2⟩ := h
  simp only [isIdentStart, Char.isAlpha, Char.isUpper, Char.isLower,
    Bool.or_eq_false_iff, Bool.and_eq_false_iff, decide_eq_false_iff_not]
  refine ⟨⟨?_, ?_⟩, ?_⟩
  · left
    intro hc
    exact absurd (UInt32.le_trans hc h2) (by decide)
  · left
    intro hc
    exact absurd (UInt32.le_trans hc h2) (by decide)
  · intro hc
    subst hc
    exact absurd h2 (by decide)

theorem identStart_not_digit {c : Char} (h : isIdentStart c = true) :
    c.isDigit = false := by
  cases hd : c.isDigit with
  | false => rfl
  | true => rw [isDigit_not_identStart hd] at h; exact absurd h (by simp)

theorem pyIdentChar_ne_caret {c : Char} (h : isPyIdentChar c = true) : c ≠ '^' := by
  intro hh; subst hh; exact absurd h (by decide)

theorem pyIdentChar_ne_star {c : Char} (h : isPyIdentChar c = true) : c ≠ '*' := by
  intro hh; subst hh; exact absurd h (by decide)

theorem isPyIdent_all {s : List Char} (h : isPyIdent s = true) :
    ∀ c ∈ s, isPyIdentChar c = true := by
  cases s with
  | nil => simp [isPyIdent] at h
  | cons c cs =>
      simp only [isPyIdent, Bool.and_eq_true, List.all_eq_true] at h
      intro d hd
      rcases List.mem_cons.1 hd with rfl | h2
      · simp [isPyIdentChar, h.1]
      · exact h.2 d h2

/-- The caret replacement is the identity on caret-free strings. -/
theorem replaceCaret_id : ∀ {s : List Char}, (∀ c ∈ s, c ≠ '^') →
    replaceCaret s = s := by
  intro s
  induction s with
  | nil => intro _; rfl
  | cons c cs ih =>
      intro h
      rw [replaceCaret_cons (h c (by simp)), ih fun d hd => h d (by simp [hd])]

/-- Star fusing is the identity on star-free strings. -/
theorem fuseStars_id : ∀ {s : List Char}, (∀ c ∈ s, c ≠ '*') →
    fuseStars s = s := by
  intro s
  induction s using fuseStars.induct with
  | case1 => intro _; rfl
  | case2 d => intro _; rfl
  | case3 c1 c2 cs hcond ih =>
      intro h
      exact absurd hcond.1 (h c1 (by simp))
  | case4 c1 c2 cs hcond ih =>
      intro h
      rw [fuseStars_two hcond, ih fun d hd => h d (by simp [List.mem_cons.1 hd])]

/-- The caret lexer turns a run of identifier characters appended to a
pending identifier accumulator into the single name token spelling both. -/
theorem lexHat_ident_run : ∀ (cs : List Char) (xs : List Char),
    (∀ c ∈ cs, isPyIdentChar c = true) →
    lexHatAux cs (some (.idt xs)) = some [Tok.name (String.mk (xs ++ cs))] := by
  intro cs
  induction cs with
  | nil => intro xs _; rw [List.append_nil]; rfl
  | cons c cs2 ih =>
      intro xs h
      have hc : isPyIdentChar c = true := h c (by simp)
      have hrest : ∀ d ∈ cs2, isPyIdentChar d = true := fun d hd => h d (by simp [hd])
      by_cases hd : c.isDigit = true
      · have hstep : lexHatAux (c :: cs2) (some (.idt xs)) =
            lexHatAux cs2 (some (.idt (xs ++ [c]))) := by
          rw [lexHatAux_digit hd]
        rw [hstep, ih (xs ++ [c]) hrest]
        simp
      · have hd2 := isDigit_of_eq_false hd
        have hi : isIdentStart c = true := by
          simp only [isPyIdentChar, Bool.or_eq_true] at hc
          rcases hc with hc | hc
          · exact hc
          · rw [hd2] at hc; exact absurd hc (by simp)
        have hstep : lexHatAux (c :: cs2) (some (.idt xs)) =
            lexHatAux cs2 (some (.idt (xs ++ [c]))) := by
          rw [lexHatAux_ident hd2 hi]
        rw [hstep, ih (xs ++ [c]) hrest]
        simp

/-- A bare identifier lexes to exactly one name token spelling it. -/
theorem lexHat_of_ident {s : List Char} (h : isPyIdent s = true) :
    lexHatAux s none = some [Tok.name (String.mk s)] := by
  cases s with
  | nil => simp [isPyIdent] at h
  | cons c cs =>
      simp only [isPyIdent, Bool.and_eq_true, List.all_eq_true] at h
      have hd : c.isDigit = false := identStart_not_digit h.1
      have hstep : lexHatAux (c :: cs) none = lexHatAux cs (some (.idt [c])) := by
        rw [lexHatAux_ident hd h.1]
      rw [hstep, lexHat_ident_run cs [c] h.2]
      simp

/-- A single name token parses to the name expression. -/
theorem pyParse_name (n : String) : pyParse [Tok.name n] = some (Expr.name n) := rfl

/-! ## C3: the handler agrees with direct caret evaluation -/

/-- C3: for every expression over digits and the characters + - * / ( ) ^
that is a well-formed arithmetic expression with value v when the caret is
read as exponentiation under standard operator precedence, the handler
(which textually replaces the caret with the Python power operator and
then evaluates) returns exactly v. -/
theorem evaluate_arithmetic_matches_standard (s : String) (v : PyVal)
    (hchars : ∀ c ∈ s.data, c ∈ ("0123456789+-*/()^").data)
    (hstd : standardCaretEval s = .ok v) :
    evaluate_arithmetic [("expression", s)] = .ok v := by
  obtain ⟨ts, hlex, hev⟩ := standardCaretEval_ok_shape hstd
  obtain ⟨e, hparse, _⟩ := pyEvalToks_ok_shape hev
  have hnb : NoBad ts := (pyParse_inv hparse).1
  have hnbs : NoBadStr s.data := lexHat_noBadStr s.data none ts hlex hnb
  have hfuse : fuseStars (replaceCaret s.data) = s.data :=
    fuseStars_replaceCaret s.data hnbs
  have hgoal : evaluate_arithmetic [("expression", s)] =
      pyEvalChars (replaceCaret s.data) := rfl
  rw [hgoal]
  unfold pyEvalChars lexPPAux
  rw [hfuse, hlex]
  exact hev

theorem evaluate_arithmetic_matches_standard_witness :
    (∀ c ∈ ("2^3").data, c ∈ ("0123456789+-*/()^").data) ∧
    standardCaretEval "2^3" = .ok (.int 8) ∧
    evaluate_arithmetic [("expression", "2^3")] = .ok (.int 8) :=
  ⟨by decide, by decide,
   evaluate_arithmetic_matches_standard "2^3" (.int 8) (by decide) (by decide)⟩

/-! ## C4: disallowed tokens and the sandbox leak -/

/-- C4, counterexample to the claim as stated: the expression consisting
of the single name __builtins__ contains letters and underscores, yet the
handler returns a value, the empty mapping, because the globals dict that
the source passes to eval binds exactly that name.  The claim required
every such expression to fail with ExpressionEvaluationError. -/
theorem evaluate_arithmetic_builtins_cex :
    (∃ c ∈ ("__builtins__").data, isIdentStart c = true) ∧
    evaluate_arithmetic [("expression", "__builtins__")] = .ok (.dict []) := by
  exact ⟨by decide, by decide⟩

/-- C4, amended: the universal failure claim survives only on the domain
where the modelled lexer is exact, bare identifiers.  For every expression
string that is one bare ASCII identifier, the handler fails with an
ExpressionEvaluationError and never returns a value, unless the identifier
is __builtins__, bound in the evaluation globals (the counterexample,
restated in the second conjunct), or one of True, False, None and
__debug__, which CPython resolves as constants without a name lookup and
which are therefore excluded from the hypotheses.  On this domain the
model matches eval failure for failure: a non-keyword identifier raises
NameError under the globals that bind only __builtins__, and a keyword
identifier is a syntax error; both are wrapped into the ValueError the
spec calls ExpressionEvaluationError. -/
theorem evaluate_arithmetic_bare_name (s : String)
    (hid : isPyIdent s.data = true)
    (hb : s ≠ "__builtins__") (ht : s ≠ "True") (hf : s ≠ "False")
    (hn : s ≠ "None") (hdbg : s ≠ "__debug__") :
    (∃ e, evaluate_arithmetic [("expression", s)] = .error e) ∧
    evaluate_arithmetic [("expression", "__builtins__")] = .ok (.dict []) := by
  refine ⟨⟨.nameError s, ?_⟩, by decide⟩
  have hAll : ∀ c ∈ s.data, isPyIdentChar c = true := isPyIdent_all hid
  have hrc : replaceCaret s.data = s.data :=
    replaceCaret_id fun c hc => pyIdentChar_ne_caret (hAll c hc)
  have hfs : fuseStars s.data = s.data :=
    fuseStars_id fun c hc => pyIdentChar_ne_star (hAll c hc)
  have hstart : evaluate_arithmetic [("expression", s)] =
      pyEvalChars (replaceCaret s.data) := rfl
  rw [hstart, hrc]
  unfold pyEvalChars lexPPAux
  rw [hfs, lexHat_of_ident hid]
  have hsmk : String.mk s.data = s := rfl
  rw [hsmk]
  have hparse : pyEvalToks [Tok.name s] = evalE (Expr.name s) := by
    unfold pyEvalToks
    rw [pyParse_name]
  dsimp only
  rw [hparse]
  simp [evalE, hb]

theorem evaluate_arithmetic_bare_name_witness :
    (∃ e, evaluate_arithmetic [("expression", "math")] = .error e) ∧
    evaluate_arithmetic [("expression", "__builtins__")] = .ok (.dict []) :=
  evaluate_arithmetic_bare_name "math" (by decide) (by decide) (by decide)
    (by decide) (by decide) (by decide)

end Spec2Proof
